import Mathlib

/-!
Verification of the cone-optimization genetic algorithm (`cones.py`).

The program is a two-objective (maximize cone volume, minimize cone surface
area) NSGA-II evolutionary search over integer decision vectors `[radius,
height]` with components in `[1, MAX_ATTRIBUTE_SIZE]`.  The crossover
operator, the fitness math and the `main` configuration constants are
translated directly from the source.  The parts of the algorithm that the
source delegates to the DEAP library (`tools.selNSGA2`, `tools.mutUniformInt`,
`tools.ParetoFront`, `algorithms.eaMuPlusLambda`) are not part of the
repository's source tree; those are modelled from the specification, as
flagged on each definition.
-/

namespace Cones

/-- The ambient random number source is modelled as a stream of naturals:
each primitive draw consumes the head of the stream. -/
abbrev RNG := ℕ → ℕ

/-- The next raw draw from the stream. -/
def RNG.head (g : RNG) : ℕ := g 0

/-- The stream with its first draw consumed. -/
def RNG.tail (g : RNG) : RNG := fun n => g (n + 1)

/-- Model of Python's `random.randint(a, b)`: a uniform integer in the
inclusive range `[a, b]`, here realised as `a + draw % (b - a + 1)`. -/
def randint (a b : ℕ) (g : RNG) : ℕ × RNG := (a + g.head % (b - a + 1), g.tail)

/-- Model of Python's `random.random() < p` gate used by the DEAP operator
probabilities: the uniform `[0,1)` draw is realised as a uniform per-mille
draw from the stream, compared with the threshold `p * 1000`. -/
def coin (t : ℕ) (g : RNG) : Bool × RNG :=
  (decide (g.head % 1000 < t), g.tail)

/-- Constant `MAX_ATTRIBUTE_SIZE = 25` (source, line 12). -/
def MAX_ATTRIBUTE_SIZE : ℕ := 25

/-- Constant `LAMBDA = 100` (source, line 97): offspring per generation. -/
def LAMBDA : ℕ := 100

/-- Constant `CXPB = 0.7` (source, line 98): crossover probability. -/
def CXPB : ℚ := 7 / 10

/-- Constant `MUTPB = 0.2` (source, line 99): mutation-pass probability. -/
def MUTPB : ℚ := 2 / 10

/-- Constant `indpb = 0.05` (source, line 92): per-component mutation probability. -/
def INDPB : ℚ := 5 / 100

/-- The per-mille draw threshold realising `CXPB` (`CXPB * 1000`). -/
def cxThreshold : ℕ := 700

/-- The per-mille draw threshold realising `MUTPB` (`MUTPB * 1000`). -/
def mutThreshold : ℕ := 200

/-- The per-mille draw threshold realising `INDPB` (`INDPB * 1000`). -/
def geneThreshold : ℕ := 50

/-- An individual is the decision vector `[radius, height]`
(source, line 17: a list of two integers). -/
abbrev Ind := ℕ × ℕ

/-- Gene sampler `toolbox.attr_item = random.randint(1, MAX_ATTRIBUTE_SIZE)`
(source, line 20). -/
def attr_item (g : RNG) : ℕ × RNG := randint 1 MAX_ATTRIBUTE_SIZE g

/-- Initializer `toolbox.individual`: two samples of `attr_item`
(source, line 21). -/
def individual (g : RNG) : Ind × RNG :=
  let rg := attr_item g
  let hg := attr_item rg.2
  ((rg.1, hg.1), hg.2)

/-- Initializer `toolbox.population(n)`: `n` fresh individuals
(source, line 22). -/
def population : ℕ → RNG → List Ind × RNG
  | 0, g => ([], g)
  | n + 1, g =>
    let ig := individual g
    let rest := population n ig.2
    (ig.1 :: rest.1, rest.2)

/-- The `crossover` operator translated statement by statement from the
source (lines 62-77), including the final `ind2[0] = h1` write that
overwrites the radius slot of the second child:

    r1 = ind1[0]; h1 = ind1[1]
    ind1[0] = ind2[0]; ind2[0] = r1
    ind1[1] = ind2[1]; ind2[0] = h1
-/
def crossover (ind1 ind2 : Ind) : Ind × Ind :=
  let r1 := ind1.1
  let h1 := ind1.2
  let a1 := (ind2.1, ind1.2)
  let a2 := (r1, ind2.2)
  let b1 := (a1.1, a2.2)
  let b2 := (h1, a2.2)
  (b1, b2)

/-- Function `calculate_volume(r, h) = pi * r**2 * (h / 3)`
(source, lines 25-33). -/
noncomputable def calculate_volume (r h : ℝ) : ℝ :=
  Real.pi * r ^ 2 * (h / 3)

/-- Function `calculate_surface_area(r, h)
= pi * r * (r + ((h**2) + (r**2)) ** 0.5)` (source, lines 36-44). -/
noncomputable def calculate_surface_area (r h : ℝ) : ℝ :=
  Real.pi * r * (r + Real.sqrt (h ^ 2 + r ^ 2))

/-- Evaluator `evaluate_fitness(individual) = (volume, surface_area)`
(source, lines 47-59; the plotting side effect carries no data). -/
noncomputable def evaluate_fitness (r h : ℝ) : ℝ × ℝ :=
  (calculate_volume r h, calculate_surface_area r h)

/-- The objective weights `(1.0, -1.0)` of `creator.Fitness` (source,
line 15): the first objective is maximized, the second minimized. -/
def weights : ℝ × ℝ := (1, -1)

/-- The fitness of an individual, as `evaluate_fitness` computes it on the
decision vector (source, line 55: `r, h = individual[0], individual[1]`). -/
noncomputable def fitR (ind : Ind) : ℝ × ℝ :=
  evaluate_fitness (ind.1 : ℝ) (ind.2 : ℝ)

section Engine

variable {α : Type} [LinearOrderedField α] {β : Type} [DecidableEq β]

/-- Modelled from the spec: the dominance relation on objective vectors for
objective directions (maximize, minimize), the direction-adjusted reading of
`creator.Fitness` weights `(1.0, -1.0)`: `u` dominates `v` iff `u` is at
least as good on both objectives and strictly better on at least one. -/
def domV (u v : α × α) : Prop :=
  (v.1 ≤ u.1 ∧ u.2 ≤ v.2) ∧ (v.1 < u.1 ∨ u.2 < v.2)

instance domV.instDecidable (u v : α × α) : Decidable (domV u v) := by
  unfold domV; infer_instance

/-- Dominance between individuals via their fitness values. -/
def dominates (fit : β → α × α) (a b : β) : Prop := domV (fit a) (fit b)

instance dominates.instDecidable (fit : β → α × α) (a b : β) :
    Decidable (dominates fit a b) := by
  unfold dominates; infer_instance

/-- Whether `a` is dominated by no member of `pool`. -/
def isNondom (fit : β → α × α) (pool : List β) (a : β) : Bool :=
  decide (∀ b ∈ pool, ¬ dominates fit b a)

/-- Modelled from the spec: the first non-dominated front of a pool, the
members dominated by no other member (spec section 4.3, step 1). -/
def nondomFilter (fit : β → α × α) (pool : List β) : List β :=
  pool.filter (isNondom fit pool)

/-- Modelled from the spec: repeated extraction of non-dominated fronts
(spec section 4.3, step 1), with fuel bounding the recursion depth. -/
def frontsAux (fit : β → α × α) : ℕ → List β → List (List β)
  | 0, _ => []
  | fuel + 1, pool =>
    if pool = [] then []
    else
      nondomFilter fit pool ::
        frontsAux fit fuel (pool.filter (fun a => ! isNondom fit pool a))

/-- The non-dominated fronts `F1, F2, ...` of a pool. -/
def paretoFronts (fit : β → α × α) (pool : List β) : List (List β) :=
  frontsAux fit pool.length pool

/-- The `m`-th objective value (`m = 0`: volume-like, maximized;
`m = 1`: surface-like, minimized). -/
def objVal (fit : β → α × α) (m : ℕ) (b : β) : α :=
  if m = 0 then (fit b).1 else (fit b).2

/-- The front paired with original positions, sorted ascending by the `m`-th
objective (spec section 4.3, step 2: sort the front by that objective). -/
def sortedPairs (fit : β → α × α) (m : ℕ) (front : List β) : List (ℕ × β) :=
  front.enum.mergeSort (fun a b => decide (objVal fit m a.2 ≤ objVal fit m b.2))

/-- Modelled from the spec: crowding contributions along a list of objective
values already in ascending order: the boundary entries get `⊤`, an interior
entry gets the gap between its two neighbors divided by the objective's
range across the front, or `0` when the range is zero
(spec section 4.3, step 2). -/
def crowdingVals (vs : List α) : List (WithTop α) :=
  (List.range vs.length).map fun j =>
    if j = 0 ∨ j = vs.length - 1 then ⊤
    else if vs.getLastD 0 = vs.headD 0 then 0
    else
      (((vs.getD (j + 1) 0 - vs.getD (j - 1) 0) /
        (vs.getLastD 0 - vs.headD 0) : α) : WithTop α)

/-- The crowding contribution of objective `m` to the front member at
original position `i`. -/
def contribAt (fit : β → α × α) (m : ℕ) (front : List β) (i : ℕ) : WithTop α :=
  let sp := sortedPairs fit m front
  (crowdingVals (sp.map (fun p => objVal fit m p.2))).getD
    (sp.findIdx (fun p => decide (p.1 = i))) ⊤

/-- Modelled from the spec: the crowding distance of the front member at
original position `i`: the sum of the per-objective contributions
(spec section 4.3, step 2). -/
def crowding (fit : β → α × α) (front : List β) (i : ℕ) : WithTop α :=
  contribAt fit 0 front i + contribAt fit 1 front i

/-- A front reordered by descending crowding distance (spec section 4.3,
step 3: within a partially included front, individuals are ordered by
descending crowding distance). -/
def sortByCrowding (fit : β → α × α) (front : List β) : List β :=
  (front.enum.mergeSort
    (fun a b => decide (crowding fit front b.1 ≤ crowding fit front a.1))).map
    Prod.snd

/-- Modelled from the spec: consume fronts in order, passing whole fronts
through while they fit and truncating the first front that does not fit by
descending crowding distance (spec section 4.3, step 3). -/
def selectFronts (fit : β → α × α) : ℕ → List (List β) → List β
  | _, [] => []
  | k, f :: fs =>
    if f.length ≤ k then f ++ selectFronts fit (k - f.length) fs
    else (sortByCrowding fit f).take k

/-- Modelled from the spec: `tools.selNSGA2(pool, k)` — non-dominated
sorting selection of `k` survivors (spec section 4.3). -/
def selNSGA2 (fit : β → α × α) (k : ℕ) (pool : List β) : List β :=
  selectFronts fit k (paretoFronts fit pool)

/-- Modelled from the spec: the Pareto-archive update (`tools.ParetoFront`):
replace the archive by the non-dominated subset of the previous archive
together with the first front of the new population, collapsing duplicates
by decision vector (spec section 4.6). -/
def updateArchive (fit : β → α × α) (archive pop : List β) : List β :=
  (nondomFilter fit (archive ++ nondomFilter fit pop)).dedup

/-- The archive invariant of the spec: no member dominates another member. -/
def PairwiseNondom (fit : β → α × α) (l : List β) : Prop :=
  ∀ a ∈ l, ∀ b ∈ l, ¬ dominates fit a b

instance PairwiseNondom.instDecidable (fit : β → α × α) (l : List β) :
    Decidable (PairwiseNondom fit l) := by
  unfold PairwiseNondom; infer_instance

/-- Monotonicity of one archive step, stated on objective-vector sets: the
new archive holds no vector dominated by a vector present in the old one. -/
def VecMonotone (fit : β → α × α) (old new : List β) : Prop :=
  ∀ v ∈ new.map fit, ∀ w ∈ old.map fit, ¬ domV w v

end Engine

/-- Modelled from the spec: `random.choice`-style draw of a parent from the
current population (spec section 4.5: repeated selection-with-replacement
of parents from the current population). -/
def choice (pop : List Ind) (g : RNG) : Ind × RNG :=
  (pop.getD (g.head % pop.length) (1, 1), g.tail)

/-- Modelled from the spec: per-component mutation of one gene — with
probability `INDPB` the gene is replaced by a fresh uniform draw from
`[1, MAX_ATTRIBUTE_SIZE]` (spec section 4.4; `tools.mutUniformInt` with
`low=1, up=MAX_ATTRIBUTE_SIZE, indpb=0.05`, source line 92). -/
def mutGene (x : ℕ) (g : RNG) : ℕ × RNG :=
  let cg := coin geneThreshold g
  if cg.1 then randint 1 MAX_ATTRIBUTE_SIZE cg.2 else (x, cg.2)

/-- Modelled from the spec: the component-wise mutation pass over the
two-gene decision vector (`tools.mutUniformInt`). -/
def mutUniformInt (ind : Ind) (g : RNG) : Ind × RNG :=
  let rg := mutGene ind.1 g
  let hg := mutGene ind.2 rg.2
  ((rg.1, hg.1), hg.2)

/-- Modelled from the spec: mutation applied to an offspring — the outer
probability `MUTPB` gates whether the component-wise pass runs at all
(spec section 4.4). -/
def mutate (ind : Ind) (g : RNG) : Ind × RNG :=
  let cg := coin mutThreshold g
  if cg.1 then mutUniformInt ind cg.2 else (ind, cg.2)

/-- Modelled from the spec: crossover applied to a parent pair with
probability `CXPB`; when not applied the parents pass through unchanged
(spec section 4.4).  The crossover itself is the source's `crossover`. -/
def matePair (p : Ind × Ind) (g : RNG) : (Ind × Ind) × RNG :=
  let cg := coin cxThreshold g
  if cg.1 then (crossover p.1 p.2, cg.2) else (p, cg.2)

/-- Modelled from the spec: production of one offspring pair — draw two
parents with replacement, apply crossover with probability `CXPB`, then
apply mutation to each of the two offspring with outer probability `MUTPB`
(spec sections 4.4-4.5). -/
def varyPair (pop : List Ind) (g : RNG) : (Ind × Ind) × RNG :=
  let ag := choice pop g
  let bg := choice pop ag.2
  let qg := matePair (ag.1, bg.1) bg.2
  let c1 := mutate qg.1.1 qg.2
  let c2 := mutate qg.1.2 c1.2
  ((c1.1, c2.1), c2.2)

/-- Modelled from the spec: the offspring pool of one generation, `n`
offspring pairs produced in sequence (spec section 4.5). -/
def vary (pop : List Ind) : ℕ → RNG → List Ind × RNG
  | 0, g => ([], g)
  | n + 1, g =>
    let pg := varyPair pop g
    let rest := vary pop n pg.2
    (pg.1.1 :: pg.1.2 :: rest.1, rest.2)

/-- The state carried across generations: the current population, the
Pareto archive, and the random stream. -/
structure GAState where
  pop : List Ind
  archive : List Ind
  rng : RNG

/-- Modelled from the spec: one generation of the μ+λ loop
(`algorithms.eaMuPlusLambda`, source lines 109-110): generate
`LAMBDA` offspring by variation, merge with the `mu` parents, select the
top `mu` by non-dominated sorting, then update the Pareto archive from the
new population (spec sections 4.5-4.6). -/
noncomputable def step (mu : ℕ) (st : GAState) : GAState :=
  let og := vary st.pop (LAMBDA / 2) st.rng
  let pool := st.pop ++ og.1
  let newpop := selNSGA2 fitR mu pool
  { pop := newpop
    archive := updateArchive fitR st.archive newpop
    rng := og.2 }

/-- The initial state: `mu` individuals sampled uniformly within bounds and
an empty archive (spec section 4.5, Init; source line 101). -/
def initState (mu : ℕ) (g : RNG) : GAState :=
  let pg := population mu g
  { pop := pg.1, archive := [], rng := pg.2 }

/-- Function `main(population_size, max_generations)` (source, lines 80-112):
run
`max_generations` generations from a fresh population, returning the final
state.  The only caller-configurable values are the two arguments; the
random stream is the ambient process-wide source, not a parameter of the
source's `main`. -/
noncomputable def main_run (population_size max_generations : ℕ) (g : RNG) :
    GAState :=
  (step population_size)^[max_generations] (initState population_size g)

/-- Both genes lie within the configured bounds `[1, MAX_ATTRIBUTE_SIZE]`. -/
def InBounds (ind : Ind) : Prop :=
  1 ≤ ind.1 ∧ ind.1 ≤ MAX_ATTRIBUTE_SIZE ∧ 1 ≤ ind.2 ∧ ind.2 ≤ MAX_ATTRIBUTE_SIZE

instance InBounds.instDecidable (ind : Ind) : Decidable (InBounds ind) := by
  unfold InBounds; infer_instance

/-- Every member of a population is within bounds. -/
def PopInBounds (l : List Ind) : Prop := ∀ ind ∈ l, InBounds ind

/-- A concrete stream under which the first offspring pair has its
crossover gate, mutation gate and both per-gene gates fire. -/
def gBoth : RNG := fun n => [0, 1, 0, 0, 0, 9, 0, 14, 999].getD n 0

/-- The suffix of `gBoth` feeding the mutation pass of the first child. -/
def gAfterCross : RNG := fun n => [0, 9, 0, 14, 999].getD n 0

/-- Fitness table for the crowding boundary witness: two distinct points. -/
def exWitFit (n : ℕ) : ℚ × ℚ := [((0 : ℚ), (0 : ℚ)), (1, 1)].getD n (0, 0)

/-- Fitness table for the crowding tie counterexample: individuals `0` and
`1` share the objective vector `(1, 1)` while `2` has `(2, 3)`; all three
are mutually non-dominating. -/
def exFit (n : ℕ) : ℚ × ℚ := [((1 : ℚ), (1 : ℚ)), (1, 1), (2, 3)].getD n (0, 0)

section EngineLemmas

variable {α : Type} [LinearOrderedField α] {β : Type} [DecidableEq β]

/-- Membership in the first non-dominated front. -/
lemma mem_nondomFilter {fit : β → α × α} {pool : List β} {a : β} :
    a ∈ nondomFilter fit pool ↔
      a ∈ pool ∧ ∀ b ∈ pool, ¬ dominates fit b a := by
  simp [nondomFilter, isNondom, List.mem_filter]

/-- Dominance is irreflexive: the strict clause fails on equal vectors. -/
lemma domV_irrefl (u : α × α) : ¬ domV u u := by
  rintro ⟨-, h | h⟩ <;> exact lt_irrefl _ h

/-- Dominance is transitive. -/
lemma domV_trans {u v w : α × α} (h1 : domV u v) (h2 : domV v w) :
    domV u w := by
  obtain ⟨⟨h11, h12⟩, h13⟩ := h1
  obtain ⟨⟨h21, h22⟩, -⟩ := h2
  refine ⟨⟨le_trans h21 h11, le_trans h12 h22⟩, ?_⟩
  rcases h13 with h | h
  · exact Or.inl (lt_of_le_of_lt h21 h)
  · exact Or.inr (lt_of_lt_of_le h h22)

/-- Every nonempty pool has a member dominated by no member: recursively, a
maximal element survives because dominance is transitive and irreflexive. -/
lemma exists_nondom (fit : β → α × α) :
    ∀ (pool : List β), pool ≠ [] → ∃ a ∈ pool, ∀ b ∈ pool, ¬ dominates fit b a
  | [], h => absurd rfl h
  | [x], _ => ⟨x, List.mem_singleton_self x, by
      intro b hb
      rw [List.mem_singleton] at hb
      subst hb
      exact domV_irrefl _⟩
  | x :: y :: rest, _ => by
      obtain ⟨a, haMem, haMax⟩ := exists_nondom fit (y :: rest) (by simp)
      by_cases hx : dominates fit x a
      · refine ⟨x, List.mem_cons_self x _, ?_⟩
        intro b hb
        rcases List.mem_cons.1 hb with rfl | hb
        · exact domV_irrefl _
        · intro hbx
          exact haMax b hb (domV_trans hbx hx)
      · refine ⟨a, List.mem_cons_of_mem _ haMem, ?_⟩
        intro b hb
        rcases List.mem_cons.1 hb with rfl | hb
        · exact hx
        · exact haMax b hb

/-- The first front of a nonempty pool is nonempty. -/
lemma nondomFilter_ne_nil (fit : β → α × α) {pool : List β} (h : pool ≠ []) :
    nondomFilter fit pool ≠ [] := by
  obtain ⟨a, haMem, haMax⟩ := exists_nondom fit pool h
  exact List.ne_nil_of_mem (mem_nondomFilter.2 ⟨haMem, haMax⟩)

/-- With enough fuel, the extracted fronts partition the pool. -/
lemma frontsAux_flatten_perm (fit : β → α × α) :
    ∀ (fuel : ℕ) (pool : List β), pool.length ≤ fuel →
      List.Perm (frontsAux fit fuel pool).flatten pool
  | 0, pool, h => by
    have hp : pool = [] := List.eq_nil_of_length_eq_zero (Nat.le_zero.1 h)
    subst hp
    rfl
  | fuel + 1, pool, h => by
    by_cases hp : pool = []
    · subst hp
      simp [frontsAux]
    · rw [frontsAux, if_neg hp]
      have hfront := nondomFilter_ne_nil fit hp
      have hperm := List.filter_append_perm (isNondom fit pool) pool
      have hlen :
          (pool.filter (fun a => ! isNondom fit pool a)).length ≤ fuel := by
        have h1 :
            (nondomFilter fit pool).length +
              (pool.filter (fun a => ! isNondom fit pool a)).length =
              pool.length := by
          simpa [nondomFilter] using hperm.length_eq
        have h2 : 1 ≤ (nondomFilter fit pool).length :=
          Nat.one_le_iff_ne_zero.2 (by
            simpa [List.length_eq_zero] using hfront)
        omega
      show List.Perm
        (nondomFilter fit pool ++
          (frontsAux fit fuel
            (pool.filter fun a => ! isNondom fit pool a)).flatten) pool
      exact (List.Perm.append_left _
        (frontsAux_flatten_perm fit fuel _ hlen)).trans hperm

/-- Reordering a front by descending crowding distance permutes it. -/
lemma sortByCrowding_perm (fit : β → α × α) (front : List β) :
    List.Perm (sortByCrowding fit front) front := by
  have h := (List.mergeSort_perm front.enum
    (fun a b =>
      decide (crowding fit front b.1 ≤ crowding fit front a.1))).map Prod.snd
  rwa [List.enum_map_snd] at h

/-- Selection takes exactly `min k (total size)` individuals. -/
lemma selectFronts_length (fit : β → α × α) :
    ∀ (fronts : List (List β)) (k : ℕ),
      (selectFronts fit k fronts).length = min k fronts.flatten.length
  | [], k => by simp [selectFronts]
  | f :: fs, k => by
    rw [selectFronts]
    by_cases hf : f.length ≤ k
    · rw [if_pos hf]
      have ih := selectFronts_length fit fs (k - f.length)
      simp only [List.length_append, ih, List.flatten_cons]
      omega
    · rw [if_neg hf]
      have hl : (sortByCrowding fit f).length = f.length :=
        (sortByCrowding_perm fit f).length_eq
      simp only [List.length_take, hl, List.flatten_cons, List.length_append]
      omega

/-- Selection `selNSGA2` returns exactly `min k (pool size)` survivors. -/
lemma selNSGA2_length (fit : β → α × α) (k : ℕ) (pool : List β) :
    (selNSGA2 fit k pool).length = min k pool.length := by
  rw [selNSGA2, selectFronts_length, paretoFronts,
    (frontsAux_flatten_perm fit pool.length pool le_rfl).length_eq]

/-- Every member of an extracted front comes from the pool. -/
lemma mem_frontsAux (fit : β → α × α) :
    ∀ (fuel : ℕ) (pool : List β) (f : List β), f ∈ frontsAux fit fuel pool →
      ∀ x ∈ f, x ∈ pool
  | 0, _, _, hf => absurd hf (List.not_mem_nil _)
  | fuel + 1, pool, f, hf => by
    rw [frontsAux] at hf
    by_cases hp : pool = []
    · rw [if_pos hp] at hf
      exact absurd hf (List.not_mem_nil _)
    · rw [if_neg hp] at hf
      rcases List.mem_cons.1 hf with rfl | hf
      · exact fun x hx => (mem_nondomFilter.1 hx).1
      · intro x hx
        exact List.mem_of_mem_filter
          (mem_frontsAux fit fuel _ f hf x hx)

/-- Every selected individual comes from one of the fronts. -/
lemma mem_selectFronts (fit : β → α × α) :
    ∀ (fronts : List (List β)) (k : ℕ) (x : β),
      x ∈ selectFronts fit k fronts → ∃ f ∈ fronts, x ∈ f
  | [], _, x, hx => absurd hx (List.not_mem_nil x)
  | f :: fs, k, x, hx => by
    rw [selectFronts] at hx
    by_cases hf : f.length ≤ k
    · rw [if_pos hf] at hx
      rcases List.mem_append.1 hx with hx | hx
      · exact ⟨f, List.mem_cons_self f fs, hx⟩
      · obtain ⟨f0, hf0, hxf0⟩ := mem_selectFronts fit fs (k - f.length) x hx
        exact ⟨f0, List.mem_cons_of_mem f hf0, hxf0⟩
    · rw [if_neg hf] at hx
      refine ⟨f, List.mem_cons_self f fs, ?_⟩
      exact (sortByCrowding_perm fit f).mem_iff.1
        ((List.take_sublist k _).subset hx)

/-- Selection `selNSGA2` keeps only members of the pool. -/
lemma mem_selNSGA2 (fit : β → α × α) {k : ℕ} {pool : List β} {x : β}
    (h : x ∈ selNSGA2 fit k pool) : x ∈ pool := by
  obtain ⟨f, hf, hxf⟩ := mem_selectFronts fit _ k x h
  exact mem_frontsAux fit pool.length pool f hf x hxf

/-- One archive update always yields a pairwise non-dominating set. -/
lemma updateArchive_pairwiseNondom (fit : β → α × α) (arch pop : List β) :
    PairwiseNondom fit (updateArchive fit arch pop) := by
  intro a ha b hb
  rw [updateArchive, List.mem_dedup] at ha hb
  exact (mem_nondomFilter.1 hb).2 a (mem_nondomFilter.1 ha).1

/-- One archive update collapses duplicates by decision vector. -/
lemma updateArchive_nodup (fit : β → α × α) (arch pop : List β) :
    (updateArchive fit arch pop).Nodup :=
  List.nodup_dedup _

/-- One archive update never keeps a vector dominated by a vector of the
previous archive. -/
lemma updateArchive_monotone (fit : β → α × α) (arch pop : List β) :
    VecMonotone fit arch (updateArchive fit arch pop) := by
  intro v hv w hw
  rcases List.mem_map.1 hv with ⟨a, ha, rfl⟩
  rcases List.mem_map.1 hw with ⟨b, hb, rfl⟩
  rw [updateArchive, List.mem_dedup] at ha
  exact (mem_nondomFilter.1 ha).2 b (List.mem_append_left _ hb)

end EngineLemmas

/-- C1: evaluation of the source's `crossover` at parents `[1,2]` and
`[3,4]`.  The code produces children `[3,4]` and `[2,4]`: the final
`ind2[0] = h1` write clobbers the radius slot, so the combined multiset of
component values differs from the parents' multiset and the value
`r1 = 1` is preserved in neither child — contradicting both the claim and
the operator's own docstring ("swapping the values of the two parents"). -/
theorem crossover_clobbers_radius :
    crossover (1, 2) (3, 4) = ((3, 4), (2, 4)) ∧
    ({(crossover (1, 2) (3, 4)).1.1, (crossover (1, 2) (3, 4)).1.2,
      (crossover (1, 2) (3, 4)).2.1, (crossover (1, 2) (3, 4)).2.2} :
        Multiset ℕ) ≠ ({1, 2, 3, 4} : Multiset ℕ) ∧
    (1 : ℕ) ∉ [(crossover (1, 2) (3, 4)).1.1, (crossover (1, 2) (3, 4)).1.2,
      (crossover (1, 2) (3, 4)).2.1, (crossover (1, 2) (3, 4)).2.2] := by
  refine ⟨by decide, by decide, by decide⟩

/-- Offspring count: each generation's variation pass produces exactly
`2 * n` offspring from `n` pair draws. -/
lemma vary_len (pop : List Ind) :
    ∀ (n : ℕ) (g : RNG), (vary pop n g).1.length = 2 * n
  | 0, _ => rfl
  | n + 1, g => by
    simp only [vary, List.length_cons, vary_len pop n]
    ring

/-- C2: offspring production applies crossover first (probability gate
`CXPB`), passes the parents through unchanged when the gate does not fire,
and then applies the `MUTPB`-gated mutation pass to every offspring —
including pass-through parents — so one offspring can undergo both
operators in the same generation.  The last conjuncts exhibit a concrete
stream under which the first child of `varyPair` is exactly the mutation
pass applied to the crossover child, and differs from both the pure
crossover child and both parents. -/
theorem offspring_crossover_then_mutation :
    (∀ (p : Ind × Ind) (g : RNG), (coin cxThreshold g).1 = false →
      matePair p g = (p, g.tail)) ∧
    (∀ (x : Ind) (g : RNG), (coin mutThreshold g).1 = true →
      mutate x g = mutUniformInt x g.tail) ∧
    (∀ (p : Ind × Ind) (g : RNG), (coin cxThreshold g).1 = false →
      (coin mutThreshold g.tail).1 = true →
      (mutate (matePair p g).1.1 (matePair p g).2).1 =
        (mutUniformInt p.1 g.tail.tail).1) ∧
    (varyPair [(1, 2), (3, 4)] gBoth).1.1 =
      (mutUniformInt (crossover (1, 2) (3, 4)).1 gAfterCross).1 ∧
    (varyPair [(1, 2), (3, 4)] gBoth).1.1 ≠ (crossover (1, 2) (3, 4)).1 ∧
    (varyPair [(1, 2), (3, 4)] gBoth).1.1 ∉ [(1, 2), (3, 4)] := by
  refine ⟨?_, ?_, ?_, by decide, by decide, by decide⟩
  · intro p g hc
    simp only [matePair, coin] at *
    simp [hc]
  · intro x g hm
    simp only [mutate, coin] at *
    simp [hm]
  · intro p g hc hm
    simp only [matePair, mutate, coin] at *
    simp [hc, hm]

/-- C2 witness: the universal conjuncts applied at a concrete parent pair
and concrete streams whose gates evaluate as required. -/
theorem offspring_crossover_then_mutation_witness :
    matePair ((1, 2), (3, 4)) (fun _ => 999) =
      (((1, 2), (3, 4)), RNG.tail (fun _ => 999)) ∧
    mutate (5, 6) (fun _ => 0) = mutUniformInt (5, 6) (RNG.tail fun _ => 0) := by
  exact ⟨offspring_crossover_then_mutation.1 ((1, 2), (3, 4)) (fun _ => 999)
      (by decide),
    offspring_crossover_then_mutation.2.1 (5, 6) (fun _ => 0) (by decide)⟩

/-- C10: the generational loop's variation parameters are fixed constants —
offspring count `LAMBDA = 100`, crossover probability `CXPB = 0.7`,
mutation-pass probability `MUTPB = 0.2`, per-gene probability
`indpb = 0.05` (with the per-mille draw thresholds realising exactly these
probabilities) — and every generation's variation pass produces exactly
`LAMBDA` offspring whatever the population and stream; only
`population_size` and `max_generations` are parameters of `main_run`. -/
theorem main_loop_fixed_parameters :
    LAMBDA = 100 ∧ CXPB = 7 / 10 ∧ MUTPB = 1 / 5 ∧ INDPB = 1 / 20 ∧
    (cxThreshold : ℚ) = CXPB * 1000 ∧
    (mutThreshold : ℚ) = MUTPB * 1000 ∧
    (geneThreshold : ℚ) = INDPB * 1000 ∧
    (∀ (pop : List Ind) (g : RNG),
      (vary pop (LAMBDA / 2) g).1.length = LAMBDA) ∧
    (∀ (mu ngen : ℕ) (g : RNG),
      main_run mu ngen g = (step mu)^[ngen] (initState mu g)) := by
  refine ⟨rfl, rfl, by norm_num [MUTPB], by norm_num [INDPB],
    by norm_num [cxThreshold, CXPB], by norm_num [mutThreshold, MUTPB],
    by norm_num [geneThreshold, INDPB], ?_, fun _ _ _ => rfl⟩
  intro pop g
  rw [vary_len]
  decide

/-- C9: the fitness evaluator returns the pair (cone volume, cone surface
area), the configured weights make the first objective maximized and the
second minimized, the evaluator computes `volume = π·r²·(h/3)` and
`surface = π·r·(r+sqrt(h²+r²))`, and the spec's stated example objectives
`r²·h` and `r·sqrt(r²+h²)+r²` are order-equivalent positive rescalings of
them (strict comparisons agree). -/
theorem evaluate_fitness_objectives (r h r' h' : ℝ) :
    evaluate_fitness r h = (calculate_volume r h, calculate_surface_area r h) ∧
    weights = (1, -1) ∧
    calculate_volume r h = Real.pi / 3 * (r ^ 2 * h) ∧
    calculate_surface_area r h =
      Real.pi * (r * Real.sqrt (r ^ 2 + h ^ 2) + r ^ 2) ∧
    (calculate_volume r h < calculate_volume r' h' ↔
      r ^ 2 * h < r' ^ 2 * h') ∧
    (calculate_surface_area r h < calculate_surface_area r' h' ↔
      r * Real.sqrt (r ^ 2 + h ^ 2) + r ^ 2 <
        r' * Real.sqrt (r' ^ 2 + h' ^ 2) + r' ^ 2) := by
  have hv : ∀ x y : ℝ, calculate_volume x y = Real.pi / 3 * (x ^ 2 * y) := by
    intro x y; unfold calculate_volume; ring
  have hs : ∀ x y : ℝ,
      calculate_surface_area x y =
        Real.pi * (x * Real.sqrt (x ^ 2 + y ^ 2) + x ^ 2) := by
    intro x y
    unfold calculate_surface_area
    rw [add_comm (y ^ 2) (x ^ 2)]
    ring
  refine ⟨rfl, rfl, hv r h, hs r h, ?_, ?_⟩
  · rw [hv, hv]
    exact mul_lt_mul_left (by positivity)
  · rw [hs, hs]
    exact mul_lt_mul_left Real.pi_pos

/-- C3 (amended): the algorithm is a deterministic function of the ambient
random stream — two runs from the same stream state with the same
configuration produce the identical final population and archive. -/
theorem run_deterministic_in_stream (mu ngen : ℕ) (g1 g2 : RNG)
    (h : g1 = g2) :
    (main_run mu ngen g1).pop = (main_run mu ngen g2).pop ∧
    (main_run mu ngen g1).archive = (main_run mu ngen g2).archive := by
  subst h
  exact ⟨rfl, rfl⟩

/-- C3 witness: determinism applied at a concrete configuration and
stream. -/
theorem run_deterministic_in_stream_witness :
    (main_run 2 0 (fun _ => 0)).pop = (main_run 2 0 (fun _ => 0)).pop ∧
    (main_run 2 0 (fun _ => 0)).archive =
      (main_run 2 0 (fun _ => 0)).archive :=
  run_deterministic_in_stream 2 0 (fun _ => 0) (fun _ => 0) rfl

/-- C3 counterexample: the claim that the caller can achieve two-run
determinism through the core's configuration fails on the source: `main`
has no seed option (its only parameters are the population size and the
generation count), so two calls with the identical configuration read
whatever state the ambient process-wide stream is in, and can return
different populations. -/
theorem same_config_not_deterministic :
    (main_run 2 0 (fun _ => 0)).pop ≠ (main_run 2 0 (fun _ => 1)).pop := by
  decide

section CrowdingLemmas

variable {α : Type} [LinearOrderedField α] {β : Type} [DecidableEq β]

/-- The index-sorted front has the front's length. -/
lemma sortedPairs_length (fit : β → α × α) (m : ℕ) (front : List β) :
    (sortedPairs fit m front).length = front.length := by
  rw [sortedPairs, List.length_mergeSort, List.enum_length]

/-- The original positions in the index-sorted front are pairwise
distinct. -/
lemma sortedPairs_fst_nodup (fit : β → α × α) (m : ℕ) (front : List β) :
    ((sortedPairs fit m front).map Prod.fst).Nodup := by
  have hperm := (List.mergeSort_perm front.enum
    (fun a b => decide (objVal fit m a.2 ≤ objVal fit m b.2))).map Prod.fst
  rw [List.enum_map_fst] at hperm
  exact hperm.nodup_iff.2 (List.nodup_range _)

/-- The individuals of the index-sorted front permute the front. -/
lemma sortedPairs_snd_perm (fit : β → α × α) (m : ℕ) (front : List β) :
    List.Perm ((sortedPairs fit m front).map Prod.snd) front := by
  have h := (List.mergeSort_perm front.enum
    (fun a b => decide (objVal fit m a.2 ≤ objVal fit m b.2))).map Prod.snd
  rwa [List.enum_map_snd] at h

/-- The index-sorted front is ascending in the chosen objective. -/
lemma sortedPairs_sorted (fit : β → α × α) (m : ℕ) (front : List β) :
    (sortedPairs fit m front).Pairwise
      (fun a b => objVal fit m a.2 ≤ objVal fit m b.2) := by
  have h : (sortedPairs fit m front).Pairwise
      (fun a b => decide (objVal fit m a.2 ≤ objVal fit m b.2) = true) := by
    apply List.sorted_mergeSort
    · intro a b c hab hbc
      simp only [decide_eq_true_eq] at *
      exact le_trans hab hbc
    · intro a b
      simp only [Bool.or_eq_true, decide_eq_true_eq]
      exact le_total _ _
  exact h.imp fun hab => by simpa using hab

/-- Looking up a position in a list with pairwise-distinct first components
finds exactly that position. -/
lemma findIdx_fst_nodup :
    ∀ (l : List (ℕ × β)) (_ : (l.map Prod.fst).Nodup) (i : ℕ)
      (hi : i < l.length),
      l.findIdx (fun p => decide (p.1 = (l.get ⟨i, hi⟩).1)) = i
  | [], _, i, hi => absurd hi (by simp)
  | x :: t, _, 0, _ => by simp [List.findIdx_cons]
  | x :: t, hn, i + 1, hi => by
    simp only [List.map_cons, List.nodup_cons] at hn
    have hti : i < t.length := Nat.lt_of_succ_lt_succ hi
    have hne : ¬ (x.1 = (t.get ⟨i, hti⟩).1) := fun he =>
      hn.1 (he ▸ List.mem_map_of_mem Prod.fst (t.get_mem i hti))
    have hget : (x :: t).get ⟨i + 1, hi⟩ = t.get ⟨i, hti⟩ := rfl
    rw [hget, List.findIdx_cons, decide_eq_false hne, Bool.cond_false,
      findIdx_fst_nodup t hn.2 i hti]

/-- A boundary entry of the crowding-value list is `⊤`. -/
lemma crowdingVals_getD_boundary (vs : List α) {j : ℕ} (hj : j < vs.length)
    (hb : j = 0 ∨ j = vs.length - 1) :
    (crowdingVals vs).getD j ⊤ = ⊤ := by
  rw [crowdingVals, List.getD_eq_getElem?_getD, List.getElem?_map,
    List.getElem?_range hj]
  simp [if_pos hb]

/-- The sorted-first member of a front receives contribution `⊤` in the
objective it is sorted by. -/
lemma contribAt_sorted_head (fit : β → α × α) (m : ℕ) (front : List β)
    (hsp : sortedPairs fit m front ≠ []) :
    contribAt fit m front ((sortedPairs fit m front).head hsp).1 = ⊤ := by
  have hC : contribAt fit m front ((sortedPairs fit m front).head hsp).1 =
      (crowdingVals
        ((sortedPairs fit m front).map fun p => objVal fit m p.2)).getD
        ((sortedPairs fit m front).findIdx fun p =>
          decide (p.1 = ((sortedPairs fit m front).head hsp).1)) ⊤ := rfl
  have hpos : 0 < (sortedPairs fit m front).length := List.length_pos.2 hsp
  have hhead : (sortedPairs fit m front).head hsp =
      (sortedPairs fit m front).get ⟨0, hpos⟩ := by
    simp [List.head_eq_getElem, List.get_eq_getElem]
  rw [hC, hhead, findIdx_fst_nodup (sortedPairs fit m front)
    (sortedPairs_fst_nodup fit m front) 0 hpos]
  apply crowdingVals_getD_boundary
  · rw [List.length_map]
    exact List.length_pos.2 hsp
  · exact Or.inl rfl

/-- The sorted-last member of a front receives contribution `⊤` in the
objective it is sorted by. -/
lemma contribAt_sorted_last (fit : β → α × α) (m : ℕ) (front : List β)
    (hsp : sortedPairs fit m front ≠ []) :
    contribAt fit m front ((sortedPairs fit m front).getLast hsp).1 = ⊤ := by
  have hpos : 0 < (sortedPairs fit m front).length := List.length_pos.2 hsp
  have hidx : (sortedPairs fit m front).length - 1 <
      (sortedPairs fit m front).length := by omega
  have hlast : (sortedPairs fit m front).getLast hsp =
      (sortedPairs fit m front).get
        ⟨(sortedPairs fit m front).length - 1, hidx⟩ := by
    simp [List.getLast_eq_getElem, List.get_eq_getElem]
  have hC : contribAt fit m front
        ((sortedPairs fit m front).getLast hsp).1 =
      (crowdingVals
        ((sortedPairs fit m front).map fun p => objVal fit m p.2)).getD
        ((sortedPairs fit m front).findIdx fun p =>
          decide (p.1 = ((sortedPairs fit m front).getLast hsp).1)) ⊤ := rfl
  rw [hC, hlast, findIdx_fst_nodup (sortedPairs fit m front)
    (sortedPairs_fst_nodup fit m front) _ hidx]
  apply crowdingVals_getD_boundary
  · rw [List.length_map]
    exact hidx
  · right
    rw [List.length_map]

/-- The sorted-first member holds the minimum of the sorting objective. -/
lemma sortedPairs_head_min (fit : β → α × α) (m : ℕ) (front : List β)
    (hsp : sortedPairs fit m front ≠ []) :
    ∀ b ∈ front,
      objVal fit m ((sortedPairs fit m front).head hsp).2 ≤
        objVal fit m b := by
  intro b hb
  have hb2 : b ∈ (sortedPairs fit m front).map Prod.snd :=
    (sortedPairs_snd_perm fit m front).mem_iff.2 hb
  obtain ⟨p, hp, rfl⟩ := List.mem_map.1 hb2
  obtain ⟨⟨i, hi⟩, rfl⟩ := List.mem_iff_get.1 hp
  have hsort := List.pairwise_iff_get.1 (sortedPairs_sorted fit m front)
  have hpos : 0 < (sortedPairs fit m front).length := List.length_pos.2 hsp
  have hhead : (sortedPairs fit m front).head hsp =
      (sortedPairs fit m front).get ⟨0, hpos⟩ := by
    simp [List.head_eq_getElem, List.get_eq_getElem]
  rw [hhead]
  by_cases hzero : 0 < i
  · exact hsort ⟨0, hpos⟩ ⟨i, hi⟩ hzero
  · have hieq : i = 0 := by omega
    subst hieq
    exact le_refl _

/-- The sorted-last member holds the maximum of the sorting objective. -/
lemma sortedPairs_last_max (fit : β → α × α) (m : ℕ) (front : List β)
    (hsp : sortedPairs fit m front ≠ []) :
    ∀ b ∈ front,
      objVal fit m b ≤
        objVal fit m ((sortedPairs fit m front).getLast hsp).2 := by
  intro b hb
  have hb2 : b ∈ (sortedPairs fit m front).map Prod.snd :=
    (sortedPairs_snd_perm fit m front).mem_iff.2 hb
  obtain ⟨p, hp, rfl⟩ := List.mem_map.1 hb2
  obtain ⟨⟨i, hi⟩, rfl⟩ := List.mem_iff_get.1 hp
  have hsort := List.pairwise_iff_get.1 (sortedPairs_sorted fit m front)
  have hpos : 0 < (sortedPairs fit m front).length := List.length_pos.2 hsp
  have hidx : (sortedPairs fit m front).length - 1 <
      (sortedPairs fit m front).length := by omega
  have hlast : (sortedPairs fit m front).getLast hsp =
      (sortedPairs fit m front).get
        ⟨(sortedPairs fit m front).length - 1, hidx⟩ := by
    simp [List.getLast_eq_getElem, List.get_eq_getElem]
  rw [hlast]
  by_cases hilast : i < (sortedPairs fit m front).length - 1
  · exact hsort ⟨i, hi⟩ ⟨(sortedPairs fit m front).length - 1, hidx⟩ hilast
  · have hieq : i = (sortedPairs fit m front).length - 1 := by omega
    subst hieq
    exact le_refl _

end CrowdingLemmas

/-- The initial population has exactly the requested size. -/
lemma population_length : ∀ (n : ℕ) (g : RNG), (population n g).1.length = n
  | 0, _ => rfl
  | n + 1, g => by
    simp only [population, List.length_cons, population_length n]

/-- A freshly drawn gene lies within `[1, MAX_ATTRIBUTE_SIZE]`. -/
lemma randint_inBounds (g : RNG) :
    1 ≤ (randint 1 MAX_ATTRIBUTE_SIZE g).1 ∧
    (randint 1 MAX_ATTRIBUTE_SIZE g).1 ≤ MAX_ATTRIBUTE_SIZE := by
  have hm : g.head % 25 < 25 := Nat.mod_lt _ (by norm_num)
  simp only [randint, MAX_ATTRIBUTE_SIZE]
  omega

/-- A freshly initialized individual is within bounds. -/
lemma individual_inBounds (g : RNG) : InBounds (individual g).1 := by
  obtain ⟨h1, h2⟩ := randint_inBounds g
  obtain ⟨h3, h4⟩ := randint_inBounds (attr_item g).2
  exact ⟨h1, h2, h3, h4⟩

/-- Every individual of a fresh population is within bounds. -/
lemma population_inBounds :
    ∀ (n : ℕ) (g : RNG), PopInBounds (population n g).1
  | 0, _ => fun ind h => absurd h (List.not_mem_nil ind)
  | n + 1, g => by
    intro ind h
    simp only [population] at h
    rcases List.mem_cons.1 h with rfl | h
    · exact individual_inBounds g
    · exact population_inBounds n _ ind h

/-- Parent selection returns a population member or the in-bounds default. -/
lemma choice_inBounds {pop : List Ind} (h : PopInBounds pop) (g : RNG) :
    InBounds (choice pop g).1 := by
  rcases eq_or_ne pop [] with rfl | hne
  · exact (by decide : InBounds (1, 1))
  · have hlt : g.head % pop.length < pop.length :=
      Nat.mod_lt _ (List.length_pos.2 hne)
    have hmem : (choice pop g).1 ∈ pop := by
      simp only [choice, List.getD_eq_getElem?_getD,
        List.getElem?_eq_getElem hlt, Option.getD_some]
      exact List.getElem_mem hlt
    exact h _ hmem

/-- The source's crossover only recombines existing component values, so it
preserves the bounds of both parents. -/
lemma crossover_inBounds {p q : Ind} (hp : InBounds p) (hq : InBounds q) :
    InBounds (crossover p q).1 ∧ InBounds (crossover p q).2 := by
  obtain ⟨hp1, hp2, hp3, hp4⟩ := hp
  obtain ⟨hq1, hq2, hq3, hq4⟩ := hq
  exact ⟨⟨hq1, hq2, hq3, hq4⟩, ⟨hp3, hp4, hq3, hq4⟩⟩

/-- Gene mutation keeps the gene within bounds. -/
lemma mutGene_inBounds {x : ℕ} (h1 : 1 ≤ x) (h2 : x ≤ MAX_ATTRIBUTE_SIZE)
    (g : RNG) :
    1 ≤ (mutGene x g).1 ∧ (mutGene x g).1 ≤ MAX_ATTRIBUTE_SIZE := by
  unfold mutGene
  by_cases hc : (coin geneThreshold g).1 = true
  · simp only [hc, if_true]
    exact randint_inBounds _
  · simp only [Bool.not_eq_true] at hc
    simp only [hc, Bool.false_eq_true, if_false]
    exact ⟨h1, h2⟩

/-- The component-wise mutation pass keeps the individual within bounds. -/
lemma mutUniformInt_inBounds {x : Ind} (h : InBounds x) (g : RNG) :
    InBounds (mutUniformInt x g).1 := by
  obtain ⟨h1, h2, h3, h4⟩ := h
  obtain ⟨k1, k2⟩ := mutGene_inBounds h1 h2 g
  obtain ⟨k3, k4⟩ := mutGene_inBounds h3 h4 (mutGene x.1 g).2
  exact ⟨k1, k2, k3, k4⟩

/-- Gated mutation keeps the individual within bounds. -/
lemma mutate_inBounds {x : Ind} (h : InBounds x) (g : RNG) :
    InBounds (mutate x g).1 := by
  unfold mutate
  by_cases hc : (coin mutThreshold g).1 = true
  · simp only [hc, if_true]
    exact mutUniformInt_inBounds h _
  · simp only [Bool.not_eq_true] at hc
    simp only [hc, Bool.false_eq_true, if_false]
    exact h

/-- Gated crossover keeps both offspring within bounds. -/
lemma matePair_inBounds {p : Ind × Ind} (h1 : InBounds p.1)
    (h2 : InBounds p.2) (g : RNG) :
    InBounds (matePair p g).1.1 ∧ InBounds (matePair p g).1.2 := by
  unfold matePair
  by_cases hc : (coin cxThreshold g).1 = true
  · simp only [hc, if_true]
    exact crossover_inBounds h1 h2
  · simp only [Bool.not_eq_true] at hc
    simp only [hc, Bool.false_eq_true, if_false]
    exact ⟨h1, h2⟩

/-- One offspring pair of an in-bounds population is in bounds. -/
lemma varyPair_inBounds {pop : List Ind} (h : PopInBounds pop) (g : RNG) :
    InBounds (varyPair pop g).1.1 ∧ InBounds (varyPair pop g).1.2 := by
  have ha := choice_inBounds h g
  have hb := choice_inBounds h (choice pop g).2
  obtain ⟨hm1, hm2⟩ :=
    matePair_inBounds (p := ((choice pop g).1, (choice pop (choice pop g).2).1))
      ha hb (choice pop (choice pop g).2).2
  exact ⟨mutate_inBounds hm1 _, mutate_inBounds hm2 _⟩

/-- Every offspring of an in-bounds population is in bounds. -/
lemma vary_inBounds {pop : List Ind} (h : PopInBounds pop) :
    ∀ (n : ℕ) (g : RNG), PopInBounds (vary pop n g).1
  | 0, _ => fun ind hm => absurd hm (List.not_mem_nil ind)
  | n + 1, g => by
    intro ind hm
    simp only [vary] at hm
    rcases List.mem_cons.1 hm with rfl | hm
    · exact (varyPair_inBounds h g).1
    · rcases List.mem_cons.1 hm with rfl | hm
      · exact (varyPair_inBounds h g).2
      · exact vary_inBounds h n _ ind hm

/-- C4: at every point during and after a run (after any number of
generation steps), the Pareto archive contains no pair in which one member
dominates another, and duplicates by decision vector are collapsed. -/
theorem archive_pairwise_nondominated (mu : ℕ) (g : RNG) (n : ℕ) :
    PairwiseNondom fitR ((step mu)^[n] (initState mu g)).archive ∧
    ((step mu)^[n] (initState mu g)).archive.Nodup := by
  cases n with
  | zero =>
    exact ⟨fun a ha => absurd ha (List.not_mem_nil a), List.nodup_nil⟩
  | succ m =>
    rw [Function.iterate_succ_apply']
    exact ⟨updateArchive_pairwiseNondom _ _ _, updateArchive_nodup _ _ _⟩

/-- C5: every decision-vector component remains within the configured
bounds `[1, MAX_ATTRIBUTE_SIZE] = [1, 25]` after initialization, after
crossover, after mutation, and throughout every generation of the run. -/
theorem decision_vector_bounds :
    (∀ g : RNG, InBounds (individual g).1) ∧
    (∀ p q : Ind, InBounds p → InBounds q →
      InBounds (crossover p q).1 ∧ InBounds (crossover p q).2) ∧
    (∀ (x : Ind) (g : RNG), InBounds x → InBounds (mutate x g).1) ∧
    (∀ (mu : ℕ) (g : RNG) (n : ℕ),
      PopInBounds ((step mu)^[n] (initState mu g)).pop) := by
  refine ⟨individual_inBounds, fun p q hp hq => crossover_inBounds hp hq,
    fun x g hx => mutate_inBounds hx g, ?_⟩
  intro mu g n
  induction n with
  | zero => exact population_inBounds mu g
  | succ m ih =>
    rw [Function.iterate_succ_apply']
    intro ind hm
    have hpool := mem_selNSGA2 fitR hm
    rcases List.mem_append.1 hpool with hp | hp
    · exact ih ind hp
    · exact vary_inBounds ih _ _ ind hp

/-- C5 witness: the operator-level bounds facts applied at concrete
in-bounds inputs, and the run-level invariant applied at a concrete
configuration, stream and member. -/
theorem decision_vector_bounds_witness :
    InBounds (crossover (1, 2) (3, 4)).1 ∧
    InBounds (mutate (25, 1) (fun _ => 0)).1 ∧
    InBounds ((1, 1) : Ind) := by
  refine ⟨(decision_vector_bounds.2.1 (1, 2) (3, 4) (by decide) (by decide)).1,
    decision_vector_bounds.2.2.1 (25, 1) (fun _ => 0) (by decide), ?_⟩
  exact decision_vector_bounds.2.2.2 1 (fun _ => 0) 0 (1, 1) (by decide)

/-- C8: after every generation's selection step the population size equals
the configured `population_size`: the merged parent-offspring pool is
truncated back to exactly `mu` survivors. -/
theorem population_size_after_selection (mu : ℕ) (g : RNG) (n : ℕ) :
    ((step mu)^[n] (initState mu g)).pop.length = mu := by
  induction n with
  | zero => exact population_length mu g
  | succ m ih =>
    rw [Function.iterate_succ_apply']
    have hstep :
        (step mu ((step mu)^[m] (initState mu g))).pop =
          selNSGA2 fitR mu
            (((step mu)^[m] (initState mu g)).pop ++
              (vary ((step mu)^[m] (initState mu g)).pop (LAMBDA / 2)
                ((step mu)^[m] (initState mu g)).rng).1) := rfl
    rw [hstep, selNSGA2_length, List.length_append, ih]
    omega

/-- C6: the archive is monotone across generations: the archive's
objective-vector set after generation `n + 1` contains no vector dominated
by a vector present in the archive after generation `n`. -/
theorem archive_monotone (mu : ℕ) (g : RNG) (n : ℕ) :
    VecMonotone fitR ((step mu)^[n] (initState mu g)).archive
      ((step mu)^[n + 1] (initState mu g)).archive := by
  rw [Function.iterate_succ_apply']
  exact updateArchive_monotone _ _ _

/-- C7 (amended): for every front and every objective, the individuals at
the boundary of the front sorted by that objective — which hold the
extreme (minimum and maximum) values of the objective — are assigned
infinite crowding distance. -/
theorem crowding_sorted_boundary {α : Type} [LinearOrderedField α]
    {β : Type} [DecidableEq β] (fit : β → α × α) (m : ℕ) (front : List β)
    (hm : m < 2) (hsp : sortedPairs fit m front ≠ []) :
    crowding fit front ((sortedPairs fit m front).head hsp).1 = ⊤ ∧
    crowding fit front ((sortedPairs fit m front).getLast hsp).1 = ⊤ ∧
    (∀ b ∈ front,
      objVal fit m ((sortedPairs fit m front).head hsp).2 ≤
        objVal fit m b) ∧
    (∀ b ∈ front,
      objVal fit m b ≤
        objVal fit m ((sortedPairs fit m front).getLast hsp).2) := by
  refine ⟨?_, ?_, sortedPairs_head_min fit m front hsp,
    sortedPairs_last_max fit m front hsp⟩
  · rcases (by omega : m = 0 ∨ m = 1) with rfl | rfl
    · rw [crowding, contribAt_sorted_head fit 0 front hsp]
      exact WithTop.top_add _
    · rw [crowding, contribAt_sorted_head fit 1 front hsp]
      exact WithTop.add_top _
  · rcases (by omega : m = 0 ∨ m = 1) with rfl | rfl
    · rw [crowding, contribAt_sorted_last fit 0 front hsp]
      exact WithTop.top_add _
    · rw [crowding, contribAt_sorted_last fit 1 front hsp]
      exact WithTop.add_top _

/-- The witness front's sorted pair list is nonempty. -/
lemma exWitFit_sp_ne : sortedPairs exWitFit 0 [0, 1] ≠ [] := by
  intro h
  have hlen := congrArg List.length h
  rw [sortedPairs_length] at hlen
  simp at hlen

/-- C7 witness: the sorted-boundary property applied to a concrete
two-point front over rational fitness values. -/
theorem crowding_sorted_boundary_witness :
    crowding exWitFit [0, 1]
      ((sortedPairs exWitFit 0 [0, 1]).head exWitFit_sp_ne).1 = ⊤ :=
  (crowding_sorted_boundary exWitFit 0 [0, 1] (by decide) exWitFit_sp_ne).1

unseal List.mergeSort List.merge in
/-- C7 counterexample: in the front `[0, 1, 2]` with tied objective values,
individual `1` holds the extreme (minimum) value of objective 0 (and of
objective 1) but receives a finite crowding distance — only the sorted
boundary individuals receive `⊤`, so "the individuals holding the extreme
value ... are assigned infinite crowding distance" fails as stated. -/
theorem crowding_extreme_tie_finite :
    PairwiseNondom exFit [0, 1, 2] ∧
    objVal exFit 0 1 ≤ objVal exFit 0 0 ∧
    objVal exFit 0 1 ≤ objVal exFit 0 2 ∧
    crowding exFit [0, 1, 2] 1 ≠ ⊤ := by
  refine ⟨by decide, by decide, by decide, ?_⟩
  have h0 : contribAt exFit 0 [0, 1, 2] 1 =
      (((2 - 1) / (2 - 1) : ℚ) : WithTop ℚ) := rfl
  have h1 : contribAt exFit 1 [0, 1, 2] 1 =
      (((3 - 1) / (3 - 1) : ℚ) : WithTop ℚ) := rfl
  rw [crowding, h0, h1, ← WithTop.coe_add]
  exact WithTop.coe_ne_top

end Cones
